import Mathlib

/-!
Shallow embedding of `remotefilelog/remotefilectx.py`.

Node ids (commit nodes and file nodes) are modelled as natural numbers, with
`0` playing the role of `nullid`; revision numbers are naturals.  External
collaborators (the changelog primitives, the manifest store, the phase cache,
the remote prefetch service and the optional fastlog service) are fields of an
environment record, mirroring the narrow interfaces the source consumes them
through.  Python exceptions are embedded as `Option`: a caught exception is
the `none` branch of the corresponding field, an uncaught one makes the
embedded function return `none`.
-/

/-- Node identifiers (commit nodes and file content nodes). -/
abbrev Node := Nat

/-- Changelog revision numbers. -/
abbrev Rev := Nat

/-- File paths. -/
abbrev FPath := String

/-- The null node id `nullid` (the 20 zero bytes), designated as `0`. -/
def nullidNode : Node := 0

/-- The null revision `nullrev` (-1). -/
def nullrevInt : Int := -1

/-- One ancestor-map entry `(p1, p2, linknode, copyfrom)`. -/
structure AMentry where
  p1 : Node
  p2 : Node
  linknode : Node
  copyfrom : FPath
deriving DecidableEq, Repr

/-- Ancestor-map keys: real file nodes, plus the Python `None` key used by
`remoteworkingfilectx.ancestormap` for the synthetic working-copy entry. -/
inductive AKey where
  | wdir : AKey
  | node : Node → AKey
deriving DecidableEq, Repr

/-- Association map modelling a Python dict: lookup returns the first binding
for a key, and insertion prepends (so a prepended binding shadows older
ones, the way a `dict` assignment overwrites). -/
abbrev AncMap := List (AKey × AMentry)

/-- Dict lookup: the first binding for the key, if any. -/
def lookupAM (m : AncMap) (k : AKey) : Option AMentry :=
  (m.find? (fun p => p.1 == k)).map (fun p => p.2)

/-- The commit-graph interface consumed by `remotefilectx`: size, node and
revision resolution, changeset reads (the manifest node and the touched-files
list), the ancestor-reachability primitive `cl.isancestor` (which holds for a
node and its own descendants, equality included), and the finite sequence
produced by the `cl.ancestors(revs, inclusive)` iterator.  These are external
collaborators (mercurial core), specified at their interface. -/
structure Changelog where
  size : Nat
  nodeOf : Rev → Node
  revOf : Node → Option Rev
  filesOf : Rev → List FPath
  manifestOf : Rev → Nat
  isancestor : Node → Node → Bool
  ancestorsOf : List Rev → Bool → List Rev

/-- The repository environment of one resolution attempt: the changelog, the
manifest store (`mfl[mnode].readfast().get(path)`), the phase cache (`true`
iff public), the fastlog configuration flag, the outcome of a fastlog call at
a given ancestor revision (`none` covers a miss, a timeout, and any caught
error), the outcome of a forced prefetch plus ancestor-map rebuild (`some`
rebuilt map on success, `none` when any step of it raised), and the
working-directory parent revisions used in the `srcrev is None` case. -/
structure Repo where
  cl : Changelog
  mfl : Nat → FPath → Option Node
  phase : Rev → Bool
  fastlogEnabled : Bool
  fastlog : Rev → Option Node
  prefetchResult : Option AncMap
  wdirParents : List Rev

/-- Embedding of `_nodefromancrev`: the node for `path` in `ancrev` when the
ancestor touched the path and its manifest content matches `fnode`. -/
def nodefromancrev (repo : Repo) (ancrev : Rev) (path : FPath) (fnode : Node) : Option Node :=
  if path ∈ repo.cl.filesOf ancrev ∧ repo.mfl (repo.cl.manifestOf ancrev) path = some fnode then
    some (repo.cl.nodeOf ancrev)
  else
    none

/-- Embedding of `_verifylinknode`, instrumented: the boolean result together
with a flag recording whether the commit graph was consulted.  The
`except error.LookupError` clause of the source is the `none` branch of
`revOf`: a linknode that no longer resolves yields `false` instead of
propagating the lookup error. -/
def verifylinknodeE (repo : Repo) (revs : List Rev) (linknode : Node) : Bool × Bool :=
  if revs.isEmpty then (false, false)
  else
    match repo.cl.revOf linknode with
    | none => (false, true)
    | some _ => (revs.any (fun r => repo.cl.isancestor linknode (repo.cl.nodeOf r)), true)

/-- The boolean result of `_verifylinknode`. -/
def verifylinknode (repo : Repo) (revs : List Rev) (linknode : Node) : Bool :=
  (verifylinknodeE repo revs linknode).1

/-- The target revisions `_adjustlinknode` verifies against: `[srcrev]`, or
the working-directory parents when `srcrev is None`. -/
def targetRevs (repo : Repo) (srcrev : Option Rev) : List Rev :=
  match srcrev with
  | some r => [r]
  | none => repo.wdirParents

/-- The effective `inclusive` flag: forced to `true` when `srcrev is None`. -/
def inclusiveFor (srcrev : Option Rev) (inclusive : Bool) : Bool :=
  match srcrev with
  | some _ => inclusive
  | none => true

/-- Result of `_adjustlinknode`, instrumented with the ancestor revisions the
walk visited and the revisions at which the fastlog lookup and the forced
prefetch-and-rebuild were attempted. -/
structure AdjustResult where
  linknode : Node
  visited : List Rev
  fastlogCalls : List Rev
  prefetchCalls : List Rev
deriving DecidableEq, Repr

/-- Embedding of the `for ancrev in iteranc` loop of `_adjustlinknode`.
Arguments after `revs` are the loop state: the remaining iterator output, the
current `linknode` variable, the `seenpublic` flag, and the three
instrumentation accumulators. -/
def adjustLoop (repo : Repo) (path : FPath) (fnode : Node) (revs : List Rev) :
    List Rev → Node → Bool → List Rev → List Rev → List Rev → AdjustResult
  | [], linknode, _, vis, fl, pf => ⟨linknode, vis, fl, pf⟩
  | ancrev :: rest, linknode, seenpublic, vis, fl, pf =>
    let vis' := vis ++ [ancrev]
    match nodefromancrev repo ancrev path fnode with
    | some lnode => ⟨lnode, vis', fl, pf⟩
    | none =>
      if seenpublic = false ∧ repo.phase ancrev = true then
        let fl' := if repo.fastlogEnabled then fl ++ [ancrev] else fl
        match (if repo.fastlogEnabled then repo.fastlog ancrev else none) with
        | some lnode => ⟨lnode, vis', fl', pf⟩
        | none =>
          let pf' := pf ++ [ancrev]
          match repo.prefetchResult with
          | some newmap =>
            match lookupAM newmap (AKey.node fnode) with
            | some entry =>
              if verifylinknode repo revs entry.linknode then
                ⟨entry.linknode, vis', fl', pf'⟩
              else
                adjustLoop repo path fnode revs rest entry.linknode true vis' fl' pf'
            | none =>
              adjustLoop repo path fnode revs rest linknode true vis' fl' pf'
          | none =>
            adjustLoop repo path fnode revs rest linknode true vis' fl' pf'
      else
        adjustLoop repo path fnode revs rest linknode seenpublic vis' fl pf

/-- Embedding of `_adjustlinknode`; `none` models the uncaught `KeyError`
raised when `fnode` has no entry in the context's ancestor map. -/
def adjustlinknode (repo : Repo) (amap : AncMap) (path : FPath) (fnode : Node)
    (srcrev : Option Rev) (inclusive : Bool) : Option AdjustResult :=
  match lookupAM amap (AKey.node fnode) with
  | none => none
  | some entry =>
    let revs := targetRevs repo srcrev
    let incl := inclusiveFor srcrev inclusive
    if verifylinknode repo revs entry.linknode then
      some ⟨entry.linknode, [], [], []⟩
    else
      some (adjustLoop repo path fnode revs (repo.cl.ancestorsOf revs incl)
        entry.linknode false [] [] [])

/-- Embedding of the Python iteration `range(a, 0, -1)`: the list
`[a, a-1, ..., 1]`, never containing `0`. -/
def rangeDownTo1 : Nat → List Nat
  | 0 => []
  | n + 1 => (n + 1) :: rangeDownTo1 n

/-- The fallback linear scan of `_linkrev`: iterate `range(len(cl)-1, 0, -1)`
and return the first revision that touched the path with matching content. -/
def linkrevScan (repo : Repo) (path : FPath) (fileid : Node) : Option Rev :=
  (rangeDownTo1 (repo.cl.size - 1)).findSome? (fun rev =>
    if path ∈ repo.cl.filesOf rev ∧ repo.mfl (repo.cl.manifestOf rev) path = some fileid then
      some rev
    else
      none)

/-- Embedding of the `_linkrev` property: the outer `none` models the uncaught
`KeyError` on the ancestor-map lookup; the inner option is the Python return
value, `some` a revision (`nullrev` for the null id) or `none` for the
`return None` reached when the fallback scan fails. -/
def linkrevFn (repo : Repo) (amap : AncMap) (path : FPath) (fileid : Node) :
    Option (Option Int) :=
  if fileid = nullidNode then some (some nullrevInt)
  else
    match lookupAM amap (AKey.node fileid) with
    | none => none
    | some entry =>
      match repo.cl.revOf entry.linknode with
      | some rev => some (some (rev : Int))
      | none => some ((linkrevScan repo path fileid).map (fun r => (r : Int)))

/-- Lookup in the supplied ancestor-context map `actx` of
`remotefilectx.ancestor` (a dict from path to a context entry, whose entries
are opaque tokens here). -/
def lookupCtx (actx : List (FPath × Nat)) (p : FPath) : Option Nat :=
  (actx.find? (fun q => q.1 == p)).map (fun q => q.2)

/-- Embedding of `remotefilectx.ancestor`: the two fast paths of the source,
with the full rename-aware traversal (ancestor-map construction plus the
external `ancestor.genericancestor` search) abstracted as `slowResult`.  The
boolean records whether that full traversal was entered, i.e. whether any
ancestor map was built. -/
def ancestorFC (selfPath fc2Path : FPath) (actx : List (FPath × Nat))
    (slowResult : Option Nat) : Option Nat × Bool :=
  if fc2Path = selfPath ∧ (lookupCtx actx selfPath).isSome then
    (lookupCtx actx selfPath, false)
  else if (lookupCtx actx selfPath).isSome ∧ (lookupCtx actx fc2Path).isNone then
    (lookupCtx actx selfPath, false)
  else if (lookupCtx actx fc2Path).isSome ∧ (lookupCtx actx selfPath).isNone then
    (lookupCtx actx fc2Path, false)
  else
    (slowResult, true)

/-- The fields of a file context used by the annotate prefetch walk: its path,
its file content node (`filenode()`), and its commit node (`node()`, the key
recorded in `seen`). -/
structure FCtx where
  path : FPath
  filenode : Node
  cnode : Node
deriving DecidableEq, Repr

/-- The inner `for parent in current.parents()` loop of `annotate`: enqueue
each parent whose commit node is unseen.  The queue is LIFO (`deque.pop`
takes the most recently appended element), modelled with the list head as the
pop end, so appending pushes onto the head. -/
def enqueueParents : List FCtx → List Node → List FCtx → List Node × List FCtx
  | [], seen, q => (seen, q)
  | p :: ps, seen, q =>
    if p.cnode ∈ seen then enqueueParents ps seen q
    else enqueueParents ps (seen ++ [p.cnode]) (p :: q)

/-- Embedding of the prefetch-planning `while queue` loop of `annotate`.
The walk records every dequeued context whose file node differs from the
starting context's file node, and skips enqueueing the parents of contexts in
`prefetchskip` (`skipActive` is the Python truthiness of `prefetchskip`, and
`skip` its membership test).  `fuel` bounds the recursion; every property
proved below holds for every fuel value.  Entries keep the raw file node (the
source stores its hex spelling). -/
def annotateLoop (parents : FCtx → List FCtx) (selfFilenode : Node)
    (skipActive : Bool) (skip : FCtx → Bool) :
    Nat → List FCtx → List Node → List (FPath × Node) → List (FPath × Node)
  | _, [], _, fetch => fetch
  | 0, _ :: _, _, fetch => fetch
  | fuel + 1, current :: queue, seen, fetch =>
    let fetch' := if current.filenode ≠ selfFilenode then
        fetch ++ [(current.path, current.filenode)]
      else fetch
    if skipActive ∧ skip current = true then
      annotateLoop parents selfFilenode skipActive skip fuel queue seen fetch'
    else
      let sq := enqueueParents (parents current) seen queue
      annotateLoop parents selfFilenode skipActive skip fuel sq.2 sq.1 fetch'

/-- The annotate prefetch plan: the loop started on the (possibly
linkrev-adjusted) introducing context, with its commit node pre-seeded into
`seen` and an empty fetch list. -/
def annotatePlan (parents : FCtx → List FCtx) (skipActive : Bool) (skip : FCtx → Bool)
    (fuel : Nat) (introctx : FCtx) (selfFilenode : Node) : List (FPath × Node) :=
  annotateLoop parents selfFilenode skipActive skip fuel [introctx] [introctx.cnode] []

/-- Embedding of one call to `remotefilectx.ancestormap`: given the map the
backing store would deliver and the current cache field, return the map
produced, the updated cache field, and the number of remote fetches performed
(0 or 1).  The guard is Python truthiness: a `None` cache or a cached empty
map both refetch. -/
def ancestormapCall (store : AncMap) (cache : Option AncMap) : AncMap × Option AncMap × Nat :=
  match cache with
  | none => (store, some store, 1)
  | some m => if m.isEmpty then (store, some store, 1) else (m, some m, 0)

/-- Modelled from the spec: the backing fetch `filelog().ancestormap(fnode)`
is remotefilelog code outside this repository's sources; per the spec the map
it returns is scoped to the file revision's full reachable ancestry and is
always a superset of the file revisions reachable from the root fileid, so it
covers the revision's own fileid. -/
def StoreCoversFnode (store : AncMap) (fnode : Node) : Prop :=
  (lookupAM store (AKey.node fnode)).isSome

/-- A commit manifest: a dict from path to file node. -/
abbrev Manifest := List (FPath × Node)

/-- Embedding of `manifest.get(path, nullid)`. -/
def mfGet (mf : Manifest) (p : FPath) : Node :=
  ((mf.find? (fun q => q.1 == p)).map (fun q => q.2)).getD nullidNode

/-- The environment of `remoteworkingfilectx.ancestormap`: the working file's
path, the first parent commit's manifest, the second parent's manifest when
there are two parents, the rename record `self.renamed()` (the source path
and the source fileid, an external dirstate/manifest computation), and the
external per-parent history fetch `filelog().ancestormap(fileid)`. -/
structure WEnv where
  path : FPath
  p1mf : Manifest
  p2mf : Option Manifest
  renamed : Option (FPath × Node)
  flmap : FPath → Node → AncMap

/-- Embedding of `remoteworkingfilectx.ancestormap`: merge the parents'
fetched maps (second parent's entries shadow the first's, as `dict.update`),
then store the synthetic working-copy entry under the `None` key. -/
def workingAncestormap (env : WEnv) : AncMap :=
  let p1 : FPath × Node :=
    match env.renamed with
    | some r => r
    | none => (env.path, mfGet env.p1mf env.path)
  let p2 : FPath × Node :=
    match env.p2mf with
    | some mf => (env.path, mfGet mf env.path)
    | none => (env.path, nullidNode)
  let m1 : AncMap := if p1.2 ≠ nullidNode then env.flmap p1.1 p1.2 else []
  let m2 : AncMap := if p2.2 ≠ nullidNode then env.flmap p2.1 p2.2 else []
  let copyfrom : FPath :=
    match env.renamed with
    | some r => r.1
    | none => ""
  (AKey.wdir, ⟨p1.2, p2.2, nullidNode, copyfrom⟩) :: (m2 ++ m1)

/-- Python-level fileid values accepted by the `remotefilectx` constructor:
`None`, an integer revision (only `nullrev` occurs), or a string of bytes
(either a 20-byte binary node or its 40-character hex spelling). -/
inductive PyFileId where
  | pynone : PyFileId
  | pyrev : Int → PyFileId
  | pystr : List (Fin 256) → PyFileId
deriving DecidableEq, Repr

/-- The 20 zero bytes of `nullid`, as a byte string. -/
def nullidBytes : List (Fin 256) := List.replicate 20 (0 : Fin 256)

/-- The lowercase ASCII hex digit for a nibble (as in `binascii.hexlify`). -/
def hexChar (d : Fin 16) : Fin 256 :=
  if d.val < 10 then ⟨48 + d.val, by have := d.isLt; omega⟩
  else ⟨87 + d.val, by have := d.isLt; omega⟩

/-- The nibble denoted by an ASCII character, if any (`binascii.unhexlify`
accepts both cases). -/
def hexVal (c : Fin 256) : Option (Fin 16) :=
  if h : 48 ≤ c.val ∧ c.val ≤ 57 then some ⟨c.val - 48, by omega⟩
  else if h : 97 ≤ c.val ∧ c.val ≤ 102 then some ⟨c.val - 97 + 10, by omega⟩
  else if h : 65 ≤ c.val ∧ c.val ≤ 70 then some ⟨c.val - 65 + 10, by omega⟩
  else none

/-- Embedding of `mercurial.node.hex` (`binascii.hexlify`, lowercase). -/
def hexlify : List (Fin 256) → List (Fin 256)
  | [] => []
  | b :: bs =>
    hexChar ⟨b.val / 16, by have := b.isLt; omega⟩ ::
      hexChar ⟨b.val % 16, by omega⟩ :: hexlify bs

/-- Embedding of `mercurial.node.bin` (`binascii.unhexlify`): decode pairs of
hex characters into bytes; `none` on odd length or a non-hex character. -/
def unhexlify : List (Fin 256) → Option (List (Fin 256))
  | [] => some []
  | [_] => none
  | c1 :: c2 :: cs =>
    match hexVal c1, hexVal c2, unhexlify cs with
    | some h, some l, some bs =>
      some (⟨h.val * 16 + l.val, by have := h.isLt; have := l.isLt; omega⟩ :: bs)
    | _, _, _ => none

/-- The fileid normalization performed by `remotefilectx.__init__`: a fileid
equal to `nullrev` becomes `nullid`, then a truthy fileid of length 40 is
converted with `bin`.  The result `none` models a Python-level error: `len`
of a non-null integer, or `bin` of a 40-character non-hex string. -/
def pyNormalize (f : PyFileId) : Option PyFileId :=
  let f1 :=
    match f with
    | PyFileId.pyrev i => if i = nullrevInt then PyFileId.pystr nullidBytes else PyFileId.pyrev i
    | x => x
  match f1 with
  | PyFileId.pynone => some PyFileId.pynone
  | PyFileId.pyrev i => if i = 0 then some (PyFileId.pyrev 0) else none
  | PyFileId.pystr s =>
    if s ≠ [] ∧ s.length = 40 then (unhexlify s).map PyFileId.pystr
    else some (PyFileId.pystr s)

/-- A concrete changelog in which the recorded linknode 99 resolves and is an
ancestor of the target head 103 (the node of revision 3). -/
def okCl : Changelog where
  size := 5
  nodeOf := fun r => r + 100
  revOf := fun n => if n = 99 then some 0 else none
  filesOf := fun _ => []
  manifestOf := fun r => r
  isancestor := fun a b => a == 99 && b == 103
  ancestorsOf := fun _ _ => [2, 1, 0]

/-- A concrete repository whose recorded linknode verifies immediately. -/
def okRepo : Repo where
  cl := okCl
  mfl := fun _ _ => none
  phase := fun _ => false
  fastlogEnabled := true
  fastlog := fun _ => none
  prefetchResult := none
  wdirParents := []

/-- A one-entry ancestor map recording linknode 99 for file node 5. -/
def cexMap : AncMap := [(AKey.node 5, ⟨0, 0, 99, ""⟩)]

/-- A concrete changelog for the exhausted-walk scenario: one ancestor
(revision 2), no recorded linknode resolves, no manifest ever matches. -/
def cexCl : Changelog where
  size := 4
  nodeOf := fun r => r + 100
  revOf := fun _ => none
  filesOf := fun _ => []
  manifestOf := fun r => r
  isancestor := fun _ _ => false
  ancestorsOf := fun _ _ => [2]

/-- A concrete repository in which verification always fails, revision 2 is
public, fastlog is disabled, and the forced refresh succeeds but delivers a
rebuilt map recording a different linknode 77 for file node 5. -/
def cexRepo : Repo where
  cl := cexCl
  mfl := fun _ _ => none
  phase := fun _ => true
  fastlogEnabled := false
  fastlog := fun _ => none
  prefetchResult := some [(AKey.node 5, ⟨0, 0, 77, ""⟩)]
  wdirParents := []

/-- Like `cexRepo`, but the forced refresh raises (prefetch failure). -/
def pfailRepo : Repo where
  cl := cexCl
  mfl := fun _ _ => none
  phase := fun _ => true
  fastlogEnabled := true
  fastlog := fun _ => none
  prefetchResult := none
  wdirParents := []

/-- A concrete repository with two commits in which only revision 0 (the
root) touched file `f`, with content node 5, and the recorded linknode 99
does not resolve. -/
def bugCl : Changelog where
  size := 2
  nodeOf := fun r => r + 100
  revOf := fun _ => none
  filesOf := fun r => if r = 0 then ["f"] else []
  manifestOf := fun r => r
  isancestor := fun _ _ => false
  ancestorsOf := fun _ _ => []

/-- The repository for the fallback-scan scenario of `_linkrev`. -/
def bugRepo : Repo where
  cl := bugCl
  mfl := fun m p => if m = 0 ∧ p = "f" then some 5 else none
  phase := fun _ => true
  fastlogEnabled := false
  fastlog := fun _ => none
  prefetchResult := none
  wdirParents := []

/-- C1: for every file revision and non-empty target revision set, if the
recorded linknode (the linknode stored in the ancestor-map entry for the file
node) resolves in the commit graph and is an ancestor of, or equal to, at
least one target revision (the external `cl.isancestor` primitive), then
`_adjustlinknode` returns exactly that linknode, visits no ancestor, and
attempts neither a fastlog lookup nor a prefetch. -/
theorem adjustlinknode_trusted_link_short_circuit
    (repo : Repo) (amap : AncMap) (path : FPath) (fnode : Node)
    (srcrev : Option Rev) (inclusive : Bool) (entry : AMentry) (lrev : Rev)
    (hmem : lookupAM amap (AKey.node fnode) = some entry)
    (hne : targetRevs repo srcrev ≠ [])
    (hres : repo.cl.revOf entry.linknode = some lrev)
    (hanc : (targetRevs repo srcrev).any
        (fun r => repo.cl.isancestor entry.linknode (repo.cl.nodeOf r)) = true) :
    adjustlinknode repo amap path fnode srcrev inclusive =
      some ⟨entry.linknode, [], [], []⟩ := by
  have hie : (targetRevs repo srcrev).isEmpty = false := by
    cases h : targetRevs repo srcrev with
    | nil => exact absurd h hne
    | cons a l => rfl
  have hv : verifylinknode repo (targetRevs repo srcrev) entry.linknode = true := by
    unfold verifylinknode verifylinknodeE
    rw [hie, hres]
    simpa using hanc
  simp only [adjustlinknode, hmem, hv, if_true]

/-- Witness for C1 at a concrete repository. -/
theorem adjustlinknode_trusted_link_short_circuit_inst :
    adjustlinknode okRepo cexMap "f" 5 (some 3) false =
      some ⟨99, [], [], []⟩ :=
  adjustlinknode_trusted_link_short_circuit okRepo cexMap "f" 5 (some 3) false
    ⟨0, 0, 99, ""⟩ 0 (by decide) (by decide) (by decide) (by decide)

/-- C4: a linknode that no longer resolves in the commit graph makes
`_verifylinknode` return `false` for every revision list (the lookup error is
absorbed, never propagated: the embedded function is total), and an empty
revision list returns `false` without consulting the commit graph (the
consulted flag of the instrumented embedding stays `false`). -/
theorem verifylinknode_failure_handling :
    (∀ (repo : Repo) (revs : List Rev) (linknode : Node),
        repo.cl.revOf linknode = none →
        (verifylinknodeE repo revs linknode).1 = false) ∧
    (∀ (repo : Repo) (linknode : Node),
        verifylinknodeE repo [] linknode = (false, false)) := by
  refine ⟨?_, ?_⟩
  · intro repo revs linknode h
    unfold verifylinknodeE
    rw [h]
    split <;> rfl
  · intro repo linknode
    rfl

/-- Witness for C4 at a concrete repository. -/
theorem verifylinknode_failure_handling_inst :
    (verifylinknodeE bugRepo [3] 99).1 = false ∧
    verifylinknodeE bugRepo [] 99 = (false, false) :=
  ⟨verifylinknode_failure_handling.1 bugRepo [3] 99 rfl,
    verifylinknode_failure_handling.2 bugRepo 99⟩

/-- C5 (code bug): in `bugRepo` the recorded linknode 99 does not resolve, so
`_linkrev` falls back to the linear scan; revision 0 (the root) touched `f`
with exactly the wanted content node 5, yet the scan iterates
`range(len(cl)-1, 0, -1) = [1]`, never examines revision 0, and the whole
computation returns Python `None` — contradicting both the claim and the
source's own comment that it searches all commits. -/
theorem linkrev_fallback_scan_skips_root :
    linkrevFn bugRepo cexMap "f" 5 = some none ∧
    ("f" ∈ bugRepo.cl.filesOf 0 ∧
      bugRepo.mfl (bugRepo.cl.manifestOf 0) "f" = some 5) ∧
    rangeDownTo1 (bugRepo.cl.size - 1) = [1] := by
  refine ⟨by decide, ⟨by decide, by decide⟩, by decide⟩

/-- Counterexample to C2 as stated: the walk visits every ancestor (only
revision 2) without a manifest match, the forced refresh at the public commit
succeeds and re-reads linknode 77 from the rebuilt map, and `_adjustlinknode`
returns 77 — not the original recorded linknode 99 read before the walk. -/
theorem adjustlinknode_exhausted_returns_reread_cex :
    lookupAM cexMap (AKey.node 5) = some ⟨0, 0, 99, ""⟩ ∧
    (cexRepo.cl.ancestorsOf (targetRevs cexRepo (some 3))
        (inclusiveFor (some 3) false)).all
      (fun r => (nodefromancrev cexRepo r "f" 5).isNone) = true ∧
    adjustlinknode cexRepo cexMap "f" 5 (some 3) false =
      some ⟨77, [2], [], [2]⟩ ∧
    (77 : Node) ≠ 99 := by
  refine ⟨by decide, by decide, by decide, by decide⟩

/-- When no ancestor yields a manifest match, no fastlog attempt hits, and no
successfully re-read linknode verifies, the walk of `_adjustlinknode` runs to
exhaustion and its result carries either the linknode it started from or a
linknode re-read from the rebuilt ancestor map after a successful forced
refresh. -/
theorem adjustLoop_exhaust (repo : Repo) (path : FPath) (fnode : Node) (revs : List Rev) :
    ∀ (anclist : List Rev) (linknode : Node) (seenpublic : Bool) (vis fl pf : List Rev),
      (∀ r ∈ anclist, nodefromancrev repo r path fnode = none) →
      (∀ r ∈ anclist, repo.fastlogEnabled = true → repo.fastlog r = none) →
      (∀ m e, repo.prefetchResult = some m → lookupAM m (AKey.node fnode) = some e →
          verifylinknode repo revs e.linknode = false) →
      (adjustLoop repo path fnode revs anclist linknode seenpublic vis fl pf).linknode
          = linknode ∨
        ∃ m e, repo.prefetchResult = some m ∧ lookupAM m (AKey.node fnode) = some e ∧
          (adjustLoop repo path fnode revs anclist linknode seenpublic vis fl pf).linknode
            = e.linknode := by
  intro anclist
  induction anclist with
  | nil =>
    intro linknode seenpublic vis fl pf _ _ _
    left
    rfl
  | cons ancrev rest ih =>
    intro linknode seenpublic vis fl pf hnm hnf hrf
    have hnm0 : nodefromancrev repo ancrev path fnode = none :=
      hnm ancrev (List.mem_cons_self _ _)
    have hnmr : ∀ r ∈ rest, nodefromancrev repo r path fnode = none :=
      fun r hr => hnm r (List.mem_cons_of_mem _ hr)
    have hnfr : ∀ r ∈ rest, repo.fastlogEnabled = true → repo.fastlog r = none :=
      fun r hr => hnf r (List.mem_cons_of_mem _ hr)
    by_cases hpub : seenpublic = false ∧ repo.phase ancrev = true
    · have hfv : (if repo.fastlogEnabled then repo.fastlog ancrev else none) = none := by
        by_cases hen : repo.fastlogEnabled
        · simpa [hen] using hnf ancrev (List.mem_cons_self _ _) hen
        · simp [hen]
      cases hpf : repo.prefetchResult with
      | none =>
        have hred : adjustLoop repo path fnode revs (ancrev :: rest) linknode seenpublic vis fl pf
            = adjustLoop repo path fnode revs rest linknode true (vis ++ [ancrev])
                (if repo.fastlogEnabled then fl ++ [ancrev] else fl) (pf ++ [ancrev]) := by
          simp only [adjustLoop, hnm0, if_pos hpub, hfv, hpf]
        rw [hred]
        rcases ih linknode true (vis ++ [ancrev])
            (if repo.fastlogEnabled then fl ++ [ancrev] else fl) (pf ++ [ancrev])
            hnmr hnfr hrf with h | ⟨m, e, hm, _, _⟩
        · exact Or.inl h
        · rw [hpf] at hm
          cases hm
      | some newmap =>
        cases hlk : lookupAM newmap (AKey.node fnode) with
        | none =>
          have hred : adjustLoop repo path fnode revs (ancrev :: rest) linknode seenpublic vis fl pf
              = adjustLoop repo path fnode revs rest linknode true (vis ++ [ancrev])
                  (if repo.fastlogEnabled then fl ++ [ancrev] else fl) (pf ++ [ancrev]) := by
            simp only [adjustLoop, hnm0, if_pos hpub, hfv, hpf, hlk]
          rw [hred]
          rcases ih linknode true (vis ++ [ancrev])
              (if repo.fastlogEnabled then fl ++ [ancrev] else fl) (pf ++ [ancrev])
              hnmr hnfr hrf with h | ⟨m, e, hm, he, h⟩
          · exact Or.inl h
          · rw [hpf] at hm
            exact Or.inr ⟨m, e, hm, he, h⟩
        | some e =>
          have hvf : verifylinknode repo revs e.linknode = false := hrf newmap e hpf hlk
          have hred : adjustLoop repo path fnode revs (ancrev :: rest) linknode seenpublic vis fl pf
              = adjustLoop repo path fnode revs rest e.linknode true (vis ++ [ancrev])
                  (if repo.fastlogEnabled then fl ++ [ancrev] else fl) (pf ++ [ancrev]) := by
            simp only [adjustLoop, hnm0, if_pos hpub, hfv, hpf, hlk, hvf,
              Bool.false_eq_true, if_false]
          rw [hred]
          rcases ih e.linknode true (vis ++ [ancrev])
              (if repo.fastlogEnabled then fl ++ [ancrev] else fl) (pf ++ [ancrev])
              hnmr hnfr hrf with h | ⟨m2, e2, hm2, he2, h⟩
          · exact Or.inr ⟨newmap, e, rfl, hlk, h⟩
          · rw [hpf] at hm2
            exact Or.inr ⟨m2, e2, hm2, he2, h⟩
    · have hred : adjustLoop repo path fnode revs (ancrev :: rest) linknode seenpublic vis fl pf
          = adjustLoop repo path fnode revs rest linknode seenpublic (vis ++ [ancrev]) fl pf := by
        simp only [adjustLoop, hnm0, if_neg hpub]
      rw [hred]
      exact ih linknode seenpublic _ _ _ hnmr hnfr hrf

/-- C2 (amended): if the ancestor walk exhausts all ancestors of the target
revisions without finding a commit whose manifest maps the path to the file's
content id, `_adjustlinknode` returns a degraded best-effort answer rather
than raising: the linknode most recently read from the ancestor map — the
original recorded linknode, unless a successful forced refresh at a public
commit re-read a linknode from the rebuilt map, in which case that re-read
linknode is returned. -/
theorem adjustlinknode_exhausted_best_effort
    (repo : Repo) (amap : AncMap) (path : FPath) (fnode : Node)
    (srcrev : Option Rev) (inclusive : Bool) (entry : AMentry)
    (hmem : lookupAM amap (AKey.node fnode) = some entry)
    (hnomatch : ∀ r ∈ repo.cl.ancestorsOf (targetRevs repo srcrev)
        (inclusiveFor srcrev inclusive), nodefromancrev repo r path fnode = none)
    (hnofast : ∀ r ∈ repo.cl.ancestorsOf (targetRevs repo srcrev)
        (inclusiveFor srcrev inclusive),
        repo.fastlogEnabled = true → repo.fastlog r = none)
    (hrefresh : ∀ m e, repo.prefetchResult = some m →
        lookupAM m (AKey.node fnode) = some e →
        verifylinknode repo (targetRevs repo srcrev) e.linknode = false) :
    ∃ res, adjustlinknode repo amap path fnode srcrev inclusive = some res ∧
      (res.linknode = entry.linknode ∨
        ∃ m e, repo.prefetchResult = some m ∧ lookupAM m (AKey.node fnode) = some e ∧
          res.linknode = e.linknode) := by
  by_cases hv : verifylinknode repo (targetRevs repo srcrev) entry.linknode = true
  · refine ⟨⟨entry.linknode, [], [], []⟩, ?_, Or.inl rfl⟩
    simp only [adjustlinknode, hmem, hv, if_true]
  · have hv' : verifylinknode repo (targetRevs repo srcrev) entry.linknode = false := by
      revert hv
      cases verifylinknode repo (targetRevs repo srcrev) entry.linknode <;> simp
    refine ⟨adjustLoop repo path fnode (targetRevs repo srcrev)
        (repo.cl.ancestorsOf (targetRevs repo srcrev) (inclusiveFor srcrev inclusive))
        entry.linknode false [] [] [], ?_, ?_⟩
    · simp only [adjustlinknode, hmem, hv', Bool.false_eq_true, if_false]
    · exact adjustLoop_exhaust repo path fnode (targetRevs repo srcrev) _
        entry.linknode false [] [] [] hnomatch hnofast hrefresh

/-- Witness for the amended C2 at a concrete repository: the refresh succeeds
and the returned linknode 77 is the one re-read from the rebuilt map. -/
theorem adjustlinknode_exhausted_best_effort_inst :
    ∃ res, adjustlinknode cexRepo cexMap "f" 5 (some 3) false = some res ∧
      (res.linknode = 99 ∨
        ∃ m e, cexRepo.prefetchResult = some m ∧ lookupAM m (AKey.node 5) = some e ∧
          res.linknode = e.linknode) :=
  adjustlinknode_exhausted_best_effort cexRepo cexMap "f" 5 (some 3) false
    ⟨0, 0, 99, ""⟩ (by decide)
    (by intro r hr; fin_cases hr; decide)
    (by intro r hr; fin_cases hr; decide)
    (by intro m e hm he; cases hm; cases he; decide)

/-- Property of an instrumented `_adjustlinknode` result: at most one fastlog
attempt, at most one prefetch attempt, and every attempted revision is public
and is preceded in the visit order only by non-public revisions (it is the
first public commit the walk saw). -/
def RefreshResProp (repo : Repo) (res : AdjustResult) : Prop :=
  res.fastlogCalls.length ≤ 1 ∧ res.prefetchCalls.length ≤ 1 ∧
  ∀ c ∈ res.fastlogCalls ++ res.prefetchCalls,
    repo.phase c = true ∧
    ∃ pre post, res.visited = pre ++ c :: post ∧ ∀ x ∈ pre, repo.phase x = false

/-- Loop invariant tying the `seenpublic` flag to the instrumentation
accumulators of the walk. -/
def RefreshInv (repo : Repo) (seenpublic : Bool) (vis fl pf : List Rev) : Prop :=
  fl.length ≤ 1 ∧ pf.length ≤ 1 ∧
  (seenpublic = false → fl = [] ∧ pf = [] ∧ ∀ x ∈ vis, repo.phase x = false) ∧
  ∀ c ∈ fl ++ pf,
    repo.phase c = true ∧
    ∃ pre post, vis = pre ++ c :: post ∧ ∀ x ∈ pre, repo.phase x = false

/-- Extending the visit list preserves the located-at-first-public property
of already-recorded attempts. -/
theorem refresh_calls_extend (repo : Repo) (vis : List Rev) (a : Rev) (calls : List Rev)
    (h : ∀ c ∈ calls, repo.phase c = true ∧
        ∃ pre post, vis = pre ++ c :: post ∧ ∀ x ∈ pre, repo.phase x = false) :
    ∀ c ∈ calls, repo.phase c = true ∧
      ∃ pre post, vis ++ [a] = pre ++ c :: post ∧ ∀ x ∈ pre, repo.phase x = false := by
  intro c hc
  obtain ⟨hp, pre, post, hdec, hpre⟩ := h c hc
  exact ⟨hp, pre, post ++ [a], by rw [hdec]; simp, hpre⟩

/-- The walk of `_adjustlinknode` preserves the refresh invariant: its result
satisfies the at-most-once, first-public-commit property. -/
theorem adjustLoop_refresh_inv (repo : Repo) (path : FPath) (fnode : Node) (revs : List Rev) :
    ∀ (anclist : List Rev) (linknode : Node) (seenpublic : Bool) (vis fl pf : List Rev),
      RefreshInv repo seenpublic vis fl pf →
      RefreshResProp repo
        (adjustLoop repo path fnode revs anclist linknode seenpublic vis fl pf) := by
  intro anclist
  induction anclist with
  | nil =>
    intro linknode seenpublic vis fl pf hinv
    exact ⟨hinv.1, hinv.2.1, hinv.2.2.2⟩
  | cons ancrev rest ih =>
    intro linknode seenpublic vis fl pf hinv
    obtain ⟨h1, h2, h3, h4⟩ := hinv
    cases hnm : nodefromancrev repo ancrev path fnode with
    | some lnode =>
      have hred : adjustLoop repo path fnode revs (ancrev :: rest) linknode seenpublic vis fl pf
          = ⟨lnode, vis ++ [ancrev], fl, pf⟩ := by
        simp only [adjustLoop, hnm]
      rw [hred]
      exact ⟨h1, h2, refresh_calls_extend repo vis ancrev _ h4⟩
    | none =>
      by_cases hpub : seenpublic = false ∧ repo.phase ancrev = true
      · obtain ⟨hfl0, hpf0, hvis0⟩ := h3 hpub.1
        subst hfl0
        subst hpf0
        have hone : ∀ c ∈ (if repo.fastlogEnabled then [ancrev] else ([] : List Rev)) ++ [ancrev],
            repo.phase c = true ∧
            ∃ pre post, vis ++ [ancrev] = pre ++ c :: post ∧
              ∀ x ∈ pre, repo.phase x = false := by
          intro c hc
          have hc' : c = ancrev := by
            rcases List.mem_append.1 hc with h | h
            · by_cases hen : repo.fastlogEnabled <;> simp [hen] at h
              exact h
            · simpa using h
          subst hc'
          exact ⟨hpub.2, vis, [], rfl, hvis0⟩
        have honefl : ∀ c ∈ (if repo.fastlogEnabled then [ancrev] else ([] : List Rev)) ++
            ([] : List Rev),
            repo.phase c = true ∧
            ∃ pre post, vis ++ [ancrev] = pre ++ c :: post ∧
              ∀ x ∈ pre, repo.phase x = false := by
          intro c hc
          refine hone c ?_
          rcases List.mem_append.1 hc with h | h
          · exact List.mem_append.2 (Or.inl h)
          · simp at h
        have hlen : (if repo.fastlogEnabled then [ancrev] else ([] : List Rev)).length ≤ 1 := by
          by_cases hen : repo.fastlogEnabled <;> simp [hen]
        have hinv' : RefreshInv repo true (vis ++ [ancrev])
            (if repo.fastlogEnabled then [ancrev] else []) [ancrev] :=
          ⟨hlen, by simp, fun h => absurd h (by decide), hone⟩
        cases hflv : (if repo.fastlogEnabled then repo.fastlog ancrev else none) with
        | some lnode =>
          have hred : adjustLoop repo path fnode revs (ancrev :: rest) linknode seenpublic vis [] []
              = ⟨lnode, vis ++ [ancrev], if repo.fastlogEnabled then [ancrev] else [], []⟩ := by
            simp only [adjustLoop, hnm, if_pos hpub, hflv, List.nil_append]
          rw [hred]
          exact ⟨hlen, by simp, honefl⟩
        | none =>
          cases hpre : repo.prefetchResult with
          | none =>
            have hred : adjustLoop repo path fnode revs (ancrev :: rest) linknode seenpublic vis [] []
                = adjustLoop repo path fnode revs rest linknode true (vis ++ [ancrev])
                    (if repo.fastlogEnabled then [ancrev] else []) [ancrev] := by
              simp only [adjustLoop, hnm, if_pos hpub, hflv, hpre, List.nil_append]
            rw [hred]
            exact ih linknode true _ _ _ hinv'
          | some newmap =>
            cases hlk : lookupAM newmap (AKey.node fnode) with
            | none =>
              have hred : adjustLoop repo path fnode revs
                    (ancrev :: rest) linknode seenpublic vis [] []
                  = adjustLoop repo path fnode revs rest linknode true (vis ++ [ancrev])
                      (if repo.fastlogEnabled then [ancrev] else []) [ancrev] := by
                simp only [adjustLoop, hnm, if_pos hpub, hflv, hpre, hlk, List.nil_append]
              rw [hred]
              exact ih linknode true _ _ _ hinv'
            | some e =>
              cases hvf : verifylinknode repo revs e.linknode with
              | true =>
                have hred : adjustLoop repo path fnode revs
                      (ancrev :: rest) linknode seenpublic vis [] []
                    = ⟨e.linknode, vis ++ [ancrev],
                        if repo.fastlogEnabled then [ancrev] else [], [ancrev]⟩ := by
                  simp only [adjustLoop, hnm, if_pos hpub, hflv, hpre, hlk, hvf, if_true,
                    List.nil_append]
                rw [hred]
                exact ⟨hlen, by simp, hone⟩
              | false =>
                have hred : adjustLoop repo path fnode revs
                      (ancrev :: rest) linknode seenpublic vis [] []
                    = adjustLoop repo path fnode revs rest e.linknode true (vis ++ [ancrev])
                        (if repo.fastlogEnabled then [ancrev] else []) [ancrev] := by
                  simp only [adjustLoop, hnm, if_pos hpub, hflv, hpre, hlk, hvf,
                    Bool.false_eq_true, if_false, List.nil_append]
                rw [hred]
                exact ih e.linknode true _ _ _ hinv'
      · have hred : adjustLoop repo path fnode revs (ancrev :: rest) linknode seenpublic vis fl pf
            = adjustLoop repo path fnode revs rest linknode seenpublic (vis ++ [ancrev]) fl pf := by
          simp only [adjustLoop, hnm, if_neg hpub]
        rw [hred]
        refine ih linknode seenpublic _ _ _ ⟨h1, h2, ?_, refresh_calls_extend repo vis ancrev _ h4⟩
        intro hsf
        obtain ⟨hfl0, hpf0, hvis0⟩ := h3 hsf
        refine ⟨hfl0, hpf0, ?_⟩
        intro x hx
        rcases List.mem_append.1 hx with h | h
        · exact hvis0 x h
        · have hx' : x = ancrev := by simpa using h
          subst hx'
          rcases Bool.eq_false_or_eq_true (repo.phase x) with h | h
          · exact absurd ⟨hsf, h⟩ hpub
          · exact h

/-- C3: in every run of `_adjustlinknode`, the fastlog lookup and the forced
prefetch-and-rebuild are each attempted at most once, and only at the first
visited commit whose phase is public (`RefreshResProp`); moreover a failed
forced refresh is absorbed — the repository environment is arbitrary here, so
`prefetchResult = none` (the refresh raised) still yields a result — and the
final conjunct shows the loop step at the triggering public commit then
continues the walk with the stale linknode instead of aborting. -/
theorem adjustlinknode_refresh_at_most_once
    (repo : Repo) (amap : AncMap) (path : FPath) (fnode : Node)
    (srcrev : Option Rev) (inclusive : Bool) (entry : AMentry)
    (hmem : lookupAM amap (AKey.node fnode) = some entry) :
    (∃ res, adjustlinknode repo amap path fnode srcrev inclusive = some res ∧
      RefreshResProp repo res) ∧
    (∀ (ancrev : Rev) (rest : List Rev) (ln : Node) (vis fl pf : List Rev),
      repo.prefetchResult = none →
      repo.phase ancrev = true →
      nodefromancrev repo ancrev path fnode = none →
      (if repo.fastlogEnabled then repo.fastlog ancrev else none) = none →
      adjustLoop repo path fnode (targetRevs repo srcrev) (ancrev :: rest) ln false vis fl pf =
        adjustLoop repo path fnode (targetRevs repo srcrev) rest ln true (vis ++ [ancrev])
          (if repo.fastlogEnabled then fl ++ [ancrev] else fl) (pf ++ [ancrev])) := by
  constructor
  · by_cases hv : verifylinknode repo (targetRevs repo srcrev) entry.linknode = true
    · refine ⟨⟨entry.linknode, [], [], []⟩,
        by simp only [adjustlinknode, hmem, hv, if_true], by simp [RefreshResProp]⟩
    · have hv' : verifylinknode repo (targetRevs repo srcrev) entry.linknode = false := by
        revert hv
        cases verifylinknode repo (targetRevs repo srcrev) entry.linknode <;> simp
      refine ⟨adjustLoop repo path fnode (targetRevs repo srcrev)
          (repo.cl.ancestorsOf (targetRevs repo srcrev) (inclusiveFor srcrev inclusive))
          entry.linknode false [] [] [], ?_, ?_⟩
      · simp only [adjustlinknode, hmem, hv', Bool.false_eq_true, if_false]
      · refine adjustLoop_refresh_inv repo path fnode (targetRevs repo srcrev) _
          entry.linknode false [] [] [] ⟨by simp, by simp, fun _ => ⟨rfl, rfl, by simp⟩, by simp⟩
  · intro ancrev rest ln vis fl pf hpf hph hnm hfv
    simp [adjustLoop, hnm, hfv, hpf, hph]

/-- Witness for C3 at a concrete repository whose forced refresh raises:
the walk still completes with a result satisfying the at-most-once,
first-public-commit property. -/
theorem adjustlinknode_refresh_at_most_once_inst :
    (∃ res, adjustlinknode pfailRepo cexMap "f" 5 (some 3) false = some res ∧
      RefreshResProp pfailRepo res) ∧
    (∀ (ancrev : Rev) (rest : List Rev) (ln : Node) (vis fl pf : List Rev),
      pfailRepo.prefetchResult = none →
      pfailRepo.phase ancrev = true →
      nodefromancrev pfailRepo ancrev "f" 5 = none →
      (if pfailRepo.fastlogEnabled then pfailRepo.fastlog ancrev else none) = none →
      adjustLoop pfailRepo "f" 5 (targetRevs pfailRepo (some 3)) (ancrev :: rest) ln false vis fl pf =
        adjustLoop pfailRepo "f" 5 (targetRevs pfailRepo (some 3)) rest ln true (vis ++ [ancrev])
          (if pfailRepo.fastlogEnabled then fl ++ [ancrev] else fl) (pf ++ [ancrev])) :=
  adjustlinknode_refresh_at_most_once pfailRepo cexMap "f" 5 (some 3) false
    ⟨0, 0, 99, ""⟩ (by decide)

/-- C6: the fast paths of `remotefilectx.ancestor`: when both paths are equal
and present in the supplied context map the entry is returned directly with
no ancestor map built, and when exactly one of the two paths is present that
path's entry is returned. -/
theorem ancestor_fast_paths (selfP fc2P : FPath) (actx : List (FPath × Nat))
    (slow : Option Nat) :
    (fc2P = selfP → (lookupCtx actx selfP).isSome = true →
      ancestorFC selfP fc2P actx slow = (lookupCtx actx selfP, false)) ∧
    ((lookupCtx actx selfP).isSome = true → lookupCtx actx fc2P = none →
      ancestorFC selfP fc2P actx slow = (lookupCtx actx selfP, false)) ∧
    ((lookupCtx actx fc2P).isSome = true → lookupCtx actx selfP = none →
      ancestorFC selfP fc2P actx slow = (lookupCtx actx fc2P, false)) := by
  refine ⟨?_, ?_, ?_⟩
  · intro h1 h2
    unfold ancestorFC
    rw [if_pos ⟨h1, h2⟩]
  · intro hs hn
    have hne : ¬(fc2P = selfP ∧ (lookupCtx actx selfP).isSome = true) := by
      rintro ⟨he, -⟩
      rw [he] at hn
      rw [hn] at hs
      cases hs
    unfold ancestorFC
    rw [if_neg hne, if_pos ⟨hs, by rw [hn]; rfl⟩]
  · intro hs hn
    have hne1 : ¬(fc2P = selfP ∧ (lookupCtx actx selfP).isSome = true) := by
      rintro ⟨-, h⟩
      rw [hn] at h
      cases h
    have hne2 : ¬((lookupCtx actx selfP).isSome = true ∧ (lookupCtx actx fc2P).isNone = true) := by
      rintro ⟨h, -⟩
      rw [hn] at h
      cases h
    unfold ancestorFC
    rw [if_neg hne1, if_neg hne2, if_pos ⟨hs, by rw [hn]; rfl⟩]

/-- Witness for C6 at a concrete context map. -/
theorem ancestor_fast_paths_inst :
    ancestorFC "a" "a" [("a", 7)] none = (some 7, false) ∧
    ancestorFC "a" "b" [("a", 7)] none = (some 7, false) ∧
    ancestorFC "b" "a" [("a", 7)] none = (some 7, false) :=
  ⟨(ancestor_fast_paths "a" "a" [("a", 7)] none).1 rfl (by decide),
    (ancestor_fast_paths "a" "b" [("a", 7)] none).2.1 (by decide) (by decide),
    (ancestor_fast_paths "b" "a" [("a", 7)] none).2.2 (by decide) (by decide)⟩

/-- Entries already collected are preserved by the annotate prefetch walk. -/
theorem annotateLoop_mono (parents : FCtx → List FCtx) (sfn : Node)
    (sa : Bool) (sk : FCtx → Bool) :
    ∀ (fuel : Nat) (q : List FCtx) (seen : List Node) (fetch : List (FPath × Node)),
      ∀ e ∈ fetch, e ∈ annotateLoop parents sfn sa sk fuel q seen fetch := by
  intro fuel
  induction fuel with
  | zero =>
    intro q seen fetch e he
    cases q with
    | nil => simpa [annotateLoop] using he
    | cons c rest => simpa [annotateLoop] using he
  | succ n ih =>
    intro q seen fetch e he
    cases q with
    | nil => simpa [annotateLoop] using he
    | cons c rest =>
      have he' : e ∈ (if c.filenode ≠ sfn then fetch ++ [(c.path, c.filenode)] else fetch) := by
        split
        · exact List.mem_append_left _ he
        · exact he
      simp only [annotateLoop]
      by_cases hskip : (sa = true) ∧ sk c = true
      · rw [if_pos hskip]
        exact ih rest seen _ e he'
      · rw [if_neg hskip]
        exact ih _ _ _ e he'

/-- No entry whose file node equals the starting file node is ever added by
the annotate prefetch walk. -/
theorem annotateLoop_ne (parents : FCtx → List FCtx) (sfn : Node)
    (sa : Bool) (sk : FCtx → Bool) :
    ∀ (fuel : Nat) (q : List FCtx) (seen : List Node) (fetch : List (FPath × Node)),
      (∀ e ∈ fetch, e.2 ≠ sfn) →
      ∀ e ∈ annotateLoop parents sfn sa sk fuel q seen fetch, e.2 ≠ sfn := by
  intro fuel
  induction fuel with
  | zero =>
    intro q seen fetch hf e he
    cases q with
    | nil => exact hf e (by simpa [annotateLoop] using he)
    | cons c rest => exact hf e (by simpa [annotateLoop] using he)
  | succ n ih =>
    intro q seen fetch hf e he
    cases q with
    | nil => exact hf e (by simpa [annotateLoop] using he)
    | cons c rest =>
      have hf' : ∀ x ∈ (if c.filenode ≠ sfn then fetch ++ [(c.path, c.filenode)] else fetch),
          x.2 ≠ sfn := by
        intro x hx
        by_cases hc : c.filenode ≠ sfn
        · rw [if_pos hc] at hx
          rcases List.mem_append.1 hx with h | h
          · exact hf x h
          · have hx' : x = (c.path, c.filenode) := by simpa using h
            rw [hx']
            exact hc
        · rw [if_neg hc] at hx
          exact hf x hx
      simp only [annotateLoop] at he
      by_cases hskip : (sa = true) ∧ sk c = true
      · rw [if_pos hskip] at he
        exact ih rest seen _ hf' e he
      · rw [if_neg hskip] at he
        exact ih _ _ _ hf' e he

/-- C7: the annotate prefetch plan never contains an entry whose file node
equals the starting revision's file node (the starting revision is never
fetched); every dequeued context whose file node differs is recorded in the
final plan; and dequeueing a context in the skip set records it (when its
file node differs) and continues with the remaining queue and an unchanged
seen set — its parents are never enqueued. -/
theorem annotate_jointpoints (parents : FCtx → List FCtx) (sk : FCtx → Bool)
    (sfn : Node) :
    (∀ (sa : Bool) (fuel : Nat) (introctx : FCtx),
      ∀ e ∈ annotatePlan parents sa sk fuel introctx sfn, e.2 ≠ sfn) ∧
    (∀ (sa : Bool) (fuel : Nat) (current : FCtx) (q : List FCtx) (seen : List Node)
        (fetch : List (FPath × Node)),
      current.filenode ≠ sfn →
      (current.path, current.filenode) ∈
        annotateLoop parents sfn sa sk (fuel + 1) (current :: q) seen fetch) ∧
    (∀ (fuel : Nat) (current : FCtx) (q : List FCtx) (seen : List Node)
        (fetch : List (FPath × Node)),
      sk current = true →
      annotateLoop parents sfn true sk (fuel + 1) (current :: q) seen fetch =
        annotateLoop parents sfn true sk fuel q seen
          (if current.filenode ≠ sfn then
            fetch ++ [(current.path, current.filenode)] else fetch)) := by
  refine ⟨?_, ?_, ?_⟩
  · intro sa fuel introctx e he
    exact annotateLoop_ne parents sfn sa sk fuel [introctx] [introctx.cnode] []
      (by intro x hx; cases hx) e he
  · intro sa fuel current q seen fetch hne
    have hmem : (current.path, current.filenode) ∈
        (if current.filenode ≠ sfn then
          fetch ++ [(current.path, current.filenode)] else fetch) := by
      rw [if_pos hne]
      exact List.mem_append_right _ (List.mem_singleton.2 rfl)
    simp only [annotateLoop]
    by_cases hskip : (sa = true) ∧ sk current = true
    · rw [if_pos hskip]
      exact annotateLoop_mono parents sfn sa sk fuel q seen _ _ hmem
    · rw [if_neg hskip]
      exact annotateLoop_mono parents sfn sa sk fuel _ _ _ _ hmem
  · intro fuel current q seen fetch hsk
    simp only [annotateLoop]
    rw [if_pos ⟨trivial, hsk⟩]

/-- Witness for C7 at a concrete walk. -/
theorem annotate_jointpoints_inst :
    ((("f" : FPath), (7 : Node)).2 ≠ 5) ∧
    ((("g" : FPath), (8 : Node)) ∈
      annotateLoop (fun _ => []) 5 true (fun _ => true) 1 [⟨"g", 8, 2⟩] [] []) ∧
    (annotateLoop (fun _ => []) 5 true (fun _ => true) 1 [⟨"g", 8, 2⟩] [] [] =
      annotateLoop (fun _ => []) 5 true (fun _ => true) 0 [] []
        (if (⟨"g", 8, 2⟩ : FCtx).filenode ≠ 5 then [] ++ [("g", 8)] else [])) :=
  ⟨(annotate_jointpoints (fun _ => []) (fun _ => true) 5).1 true 2 ⟨"f", 7, 1⟩
      ("f", 7) (by decide),
    (annotate_jointpoints (fun _ => []) (fun _ => true) 5).2.1 true 0 ⟨"g", 8, 2⟩ [] [] []
      (by decide),
    (annotate_jointpoints (fun _ => []) (fun _ => true) 5).2.2 0 ⟨"g", 8, 2⟩ [] [] [] rfl⟩

/-- C8: two successive `ancestormap` calls on a context that is not
invalidated in between return maps with identical entries, and the second
call performs no remote fetch (fetch count 0), given that the store's map
covers the file's own revision (and is therefore non-empty, so the Python
truthiness guard accepts the cached map). -/
theorem ancestormap_idempotent_cached (store : AncMap) (c0 : Option AncMap) (fnode : Node)
    (hcover : StoreCoversFnode store fnode) :
    (ancestormapCall store c0).1 =
      (ancestormapCall store (ancestormapCall store c0).2.1).1 ∧
    (ancestormapCall store (ancestormapCall store c0).2.1).2.2 = 0 := by
  have hne : store.isEmpty = false := by
    cases store with
    | nil =>
      unfold StoreCoversFnode lookupAM at hcover
      simp at hcover
    | cons a l => rfl
  cases c0 with
  | none => simp [ancestormapCall, hne]
  | some m =>
    cases hm : m.isEmpty with
    | true => simp [ancestormapCall, hm, hne]
    | false => simp [ancestormapCall, hm]

/-- Witness for C8 at a concrete store and an initially empty cache. -/
theorem ancestormap_idempotent_cached_inst :
    (ancestormapCall cexMap none).1 =
      (ancestormapCall cexMap (ancestormapCall cexMap none).2.1).1 ∧
    (ancestormapCall cexMap (ancestormapCall cexMap none).2.1).2.2 = 0 :=
  ancestormap_idempotent_cached cexMap none 5 (by unfold StoreCoversFnode; decide)

/-- Dict lookup on a map whose head binds the looked-up key returns the head
entry (the prepended binding shadows the rest). -/
theorem lookupAM_cons_self (k : AKey) (e : AMentry) (rest : AncMap) :
    lookupAM ((k, e) :: rest) k = some e := by
  unfold lookupAM
  rw [List.find?_cons_of_pos _ (by simp)]
  rfl

/-- C9: the map built by `remoteworkingfilectx.ancestormap` holds, under the
working-copy key, the single synthetic entry: its linknode is `nullid`; its
`p1` is the rename-source fileid when the file was renamed and otherwise the
first parent manifest's entry for the path (`nullid` when absent, via
`mfGet`); its `p2` is the second parent manifest's entry when two parents
exist and `nullid` otherwise; and its `copyfrom` is the rename source path
when renamed and empty otherwise.  The statement is universal
over the external fetch `flmap`, so the synthetic entry is independent of any
fetched data. -/
theorem working_ancestormap_synthetic_entry (env : WEnv) :
    ∃ e, lookupAM (workingAncestormap env) AKey.wdir = some e ∧
      e.linknode = nullidNode ∧
      (∀ src fid, env.renamed = some (src, fid) → e.p1 = fid ∧ e.copyfrom = src) ∧
      (env.renamed = none → e.p1 = mfGet env.p1mf env.path ∧ e.copyfrom = "") ∧
      (∀ mf, env.p2mf = some mf → e.p2 = mfGet mf env.path) ∧
      (env.p2mf = none → e.p2 = nullidNode) := by
  refine ⟨_, lookupAM_cons_self AKey.wdir _ _, rfl, ?_, ?_, ?_, ?_⟩
  · intro src fid h
    simp [h]
  · intro h
    simp [h]
  · intro mf h
    simp [h]
  · intro h
    simp [h]

/-- A concrete working-copy environment: a rename from `old` (source fileid
8), two parents whose manifests bind `f` to 3 and 9. -/
def wenvInst : WEnv where
  path := "f"
  p1mf := [("f", 3)]
  p2mf := some [("f", 9)]
  renamed := some ("old", 8)
  flmap := fun _ _ => []

/-- Witness for C9: on `wenvInst` the synthetic working-copy entry picks the
rename-source fileid 8 for `p1`, the second parent's manifest entry 9 for
`p2`, copyfrom `old`, and linknode `nullid`. -/
theorem working_ancestormap_synthetic_entry_inst :
    ∃ e, lookupAM (workingAncestormap wenvInst) AKey.wdir = some e ∧
      e.p1 = 8 ∧ e.copyfrom = "old" ∧ e.p2 = 9 ∧ e.linknode = nullidNode := by
  obtain ⟨e, h1, h2, h3, -, h5, -⟩ := working_ancestormap_synthetic_entry wenvInst
  obtain ⟨hp1, hcf⟩ := h3 "old" 8 rfl
  have hp2 := h5 [("f", 9)] rfl
  exact ⟨e, h1, hp1, hcf, by rw [hp2]; rfl, h2⟩

/-- Decoding the hex digit character of a nibble recovers the nibble. -/
theorem hexVal_hexChar : ∀ d : Fin 16, hexVal (hexChar d) = some d := by decide

/-- Unhexlify is a left inverse of hexlify (bin of hex recovers the bytes). -/
theorem unhexlify_hexlify : ∀ b : List (Fin 256), unhexlify (hexlify b) = some b := by
  intro b
  induction b with
  | nil => rfl
  | cons x xs ih =>
    have hsplit : (⟨x.val / 16 * 16 + x.val % 16,
        by have := x.isLt; omega⟩ : Fin 256) = x := by
      apply Fin.ext
      show x.val / 16 * 16 + x.val % 16 = x.val
      omega
    simp only [hexlify, unhexlify, hexVal_hexChar, ih]
    simp [hsplit]

/-- Hexlify doubles the length. -/
theorem hexlify_length : ∀ b : List (Fin 256), (hexlify b).length = 2 * b.length := by
  intro b
  induction b with
  | nil => rfl
  | cons x xs ih =>
    simp only [hexlify, List.length_cons, ih]
    omega

/-- C10: the constructor normalization of fileids: a fileid equal to
`nullrev` is replaced by the null node id, and for any 20-byte identifier the
40-character hex spelling is converted by `bin` to the 20-byte binary form
while the binary spelling is left unchanged — so both spellings of the same
identifier yield the same stored fileid. -/
theorem fileid_normalization :
    pyNormalize (PyFileId.pyrev nullrevInt) = some (PyFileId.pystr nullidBytes) ∧
    ∀ b : List (Fin 256), b.length = 20 →
      pyNormalize (PyFileId.pystr (hexlify b)) = some (PyFileId.pystr b) ∧
      pyNormalize (PyFileId.pystr b) = some (PyFileId.pystr b) := by
  constructor
  · rfl
  · intro b hb
    constructor
    · have hlen : (hexlify b).length = 40 := by rw [hexlify_length, hb]
      have hne : hexlify b ≠ [] := by
        intro h
        rw [h] at hlen
        simp at hlen
      simp only [pyNormalize]
      rw [if_pos ⟨hne, hlen⟩, unhexlify_hexlify]
      rfl
    · simp only [pyNormalize]
      rw [if_neg]
      rintro ⟨-, h40⟩
      rw [hb] at h40
      exact absurd h40 (by decide)

/-- Witness for C10 at the concrete null identifier. -/
theorem fileid_normalization_inst :
    pyNormalize (PyFileId.pystr (hexlify nullidBytes)) = some (PyFileId.pystr nullidBytes) ∧
    pyNormalize (PyFileId.pystr nullidBytes) = some (PyFileId.pystr nullidBytes) :=
  fileid_normalization.2 nullidBytes (by decide)
